import Mathlib

/-!
Verification of the headline-stream pipeline (app/cleaning.py, app/config.py,
app/scoring.py, app/stream.py, app/api.py) against its natural-language
specification.  Python functions are shallowly embedded as executable Lean
definitions: strings are `String`/`List Char`, Python ints are `Int`, Python
sets are `Finset String`, Python floats are modelled by `ℚ` (exact rational
arithmetic), `collections.Counter` is an insertion-ordered association list,
and exceptions are modelled with `Except`.
-/

/- =====================================================================
   Python character-class primitives
   ===================================================================== -/

/-- Python `\s` restricted to its ASCII members (space, tab, newline,
carriage return, vertical tab, form feed); the texts handled here are
ASCII after cleaning. -/
def pyIsSpace (c : Char) : Bool :=
  c == ' ' || c == '\t' || c == '\n' || c == '\r' || c.toNat == 11 || c.toNat == 12

/-- The character class kept by `RE_NONLET_ASCII = [^A-Za-z ]+` (its
complement): ASCII letters and the space character. -/
def keepLetterSpace (c : Char) : Bool :=
  c.isAlpha || c == ' '

/-- Character-wise `str.lower` (ASCII range; `Char.toLower` maps A-Z to a-z
and leaves everything else unchanged). -/
def lowerL (cs : List Char) : List Char := cs.map Char.toLower

def lbrace : Char := Char.ofNat 123

def rbrace : Char := Char.ofNat 125

/- =====================================================================
   app/cleaning.py
   ===================================================================== -/

/-- Embeds `RE_NONLET_ASCII.sub(" ", s)`: replace each maximal run of characters
outside `[A-Za-z ]` by a single space.  The boolean state records whether the
previous character belonged to the run being replaced. -/
def subNonLetters : List Char → Bool → List Char
  | [], _ => []
  | c :: cs, inRun =>
    if keepLetterSpace c then c :: subNonLetters cs false
    else if inRun then subNonLetters cs true
    else ' ' :: subNonLetters cs true

/-- Embeds `RE_SPACES.sub(" ", s)` with `RE_SPACES = \s+`: replace each maximal
whitespace run by a single space. -/
def subWsRuns : List Char → Bool → List Char
  | [], _ => []
  | c :: cs, inRun =>
    if !pyIsSpace c then c :: subWsRuns cs false
    else if inRun then subWsRuns cs true
    else ' ' :: subWsRuns cs true

/-- Python `str.strip()`: drop whitespace from both ends. -/
def stripEnds (cs : List Char) : List Char :=
  ((cs.dropWhile pyIsSpace).reverse.dropWhile pyIsSpace).reverse

/-- Embeds `cleaning._collapse_spaces`: whitespace runs to single spaces, then strip. -/
def _collapse_spaces (cs : List Char) : List Char :=
  stripEnds (subWsRuns cs false)

/-- Embeds `cleaning._ascii_words_only`: keep ASCII letters and spaces only, then
collapse whitespace. -/
def _ascii_words_only (cs : List Char) : List Char :=
  _collapse_spaces (subNonLetters cs false)

/-- Python `str.split()` (no separator): split on whitespace runs, returning
the non-empty fields.  `cur` accumulates the current word reversed. -/
def pySplitAux : List Char → List Char → List (List Char)
  | [], cur => if cur.isEmpty then [] else [cur.reverse]
  | c :: cs, cur =>
    if pyIsSpace c then
      if cur.isEmpty then pySplitAux cs [] else cur.reverse :: pySplitAux cs []
    else pySplitAux cs (c :: cur)

def pySplit (cs : List Char) : List (List Char) := pySplitAux cs []

/-- Embeds `" ".join(ws)`. -/
def joinSp : List (List Char) → List Char
  | [] => []
  | [w] => w
  | w :: ws => w ++ ' ' :: joinSp ws

/-- Embeds `cleaning.EXCLUDE_TOKENS`. -/
def EXCLUDE_TOKENS : List (List Char) :=
  ["whatlinkshere".data, "special".data, "category".data, "categories".data, "wp".data]

/-- Embeds `cleaning._drop_excluded_tokens`: drop words whose lowercase form is an
excluded token, rejoin with single spaces. -/
def _drop_excluded_tokens (cs : List Char) : List Char :=
  joinSp ((pySplit cs).filter (fun w => !(EXCLUDE_TOKENS.contains (lowerL w))))

/-- Embeds `cleaning.NS_PREFIXES`. -/
def nsNames : List (List Char) :=
  ["special".data, "user".data, "user talk".data, "talk".data, "wikipedia".data,
   "file".data, "template".data, "help".data, "category".data, "portal".data,
   "book".data, "draft".data, "timedtext".data, "module".data, "mediawiki".data]

/-- Embeds `RE_NS.match(t)` for `RE_NS = ^([^:]+):(.*)$`: group 1 is the non-empty
text before the first colon, group 2 the remainder, which must contain no
newline except possibly one trailing newline that `$` absorbs. -/
def nsSplit (cs : List Char) : Option (List Char × List Char) :=
  let pre := cs.takeWhile (fun c => c ≠ ':')
  if pre.length = cs.length then none           -- no colon in the string
  else if pre.isEmpty then none                 -- `[^:]+` needs at least one char
  else
    let rest := cs.drop (pre.length + 1)
    if rest.contains '\n' then
      if rest.getLastD ' ' == '\n' && !(rest.dropLast.contains '\n') then
        some (pre, rest.dropLast)
      else none
    else some (pre, rest)

/-- Embeds `cleaning.normalize_title` on character lists. -/
def normTitleL (title : List Char) : List Char :=
  let t := stripEnds title
  let t := match nsSplit t with
           | some (pre, rest) => if nsNames.contains (lowerL pre) then rest else t
           | none => t
  let t := t.map (fun c => if c = '/' then ' ' else c)   -- t.replace("/", " ")
  _drop_excluded_tokens (_ascii_words_only t)

def normalize_title (title : String) : String := String.mk (normTitleL title.data)

/-- Embeds `RE_LINKS.sub(" ", s)` with `RE_LINKS = \[\[|\]\]|\{\{|\}\}`: each
occurrence of a double bracket or double brace becomes one space. -/
def subLinks : List Char → List Char
  | [] => []
  | [c] => [c]
  | a :: b :: rest =>
    if (a = '[' ∧ b = '[') ∨ (a = ']' ∧ b = ']') ∨
       (a = lbrace ∧ b = lbrace) ∨ (a = rbrace ∧ b = rbrace) then
      ' ' :: subLinks rest
    else a :: subLinks (b :: rest)

def lstarts : List Char → List Char → Bool
  | [], _ => true
  | _ :: _, [] => false
  | p :: ps, c :: cs => p == c && lstarts ps cs

/-- Match `http[s]?://\S+` at the head of `cs`; return the suffix after the
match.  `\S+` requires at least one non-space character after the scheme. -/
def urlMatch (cs : List Char) : Option (List Char) :=
  if lstarts "https://".data cs then
    let rest := cs.drop 8
    match rest.head? with
    | some c => if pyIsSpace c then none
                else some (rest.dropWhile (fun d => !pyIsSpace d))
    | none => none
  else if lstarts "http://".data cs then
    let rest := cs.drop 7
    match rest.head? with
    | some c => if pyIsSpace c then none
                else some (rest.dropWhile (fun d => !pyIsSpace d))
    | none => none
  else none

/-- Embeds `RE_URL.sub(" ", s)` with `RE_URL = http[s]?://\S+`: replace each URL by
one space, scanning left to right.  The fuel argument (the input length) only
serves termination: every step consumes at least one character. -/
def subUrlF : Nat → List Char → List Char
  | 0, _ => []
  | _, [] => []
  | fuel + 1, c :: rest =>
    match urlMatch (c :: rest) with
    | some rest2 => ' ' :: subUrlF fuel rest2
    | none => c :: subUrlF fuel rest

def subUrl (cs : List Char) : List Char := subUrlF cs.length cs

/-- Embeds `cleaning.strip_admin_markup` on character lists. -/
def stripAdminL (cs : List Char) : List Char :=
  _collapse_spaces (subUrl (subLinks cs))

def strip_admin_markup (s : String) : String := String.mk (stripAdminL s.data)

/-- Embeds `cleaning.normalize_comment` on character lists. -/
def normCommentL (comment : List Char) : List Char :=
  _drop_excluded_tokens (_ascii_words_only (subUrl (subLinks comment)))

def normalize_comment (comment : String) : String := String.mk (normCommentL comment.data)

/- =====================================================================
   Character-class invariants of the cleaning pipeline
   ===================================================================== -/

theorem mem_subNonLetters {c : Char} : ∀ {cs : List Char} {b : Bool},
    c ∈ subNonLetters cs b → keepLetterSpace c = true := by
  intro cs
  induction cs with
  | nil => intro b h; simp [subNonLetters] at h
  | cons x xs ih =>
    intro b h
    by_cases hx : keepLetterSpace x
    · rw [subNonLetters, if_pos hx] at h
      rcases List.mem_cons.mp h with h | h
      · subst h; exact hx
      · exact ih h
    · rw [subNonLetters, if_neg hx] at h
      by_cases hb : b
      · rw [if_pos hb] at h; exact ih h
      · rw [if_neg hb] at h
        rcases List.mem_cons.mp h with h | h
        · subst h; decide
        · exact ih h

theorem mem_subWsRuns {c : Char} : ∀ {cs : List Char} {b : Bool},
    c ∈ subWsRuns cs b → c ∈ cs ∨ c = ' ' := by
  intro cs
  induction cs with
  | nil => intro b h; simp [subWsRuns] at h
  | cons x xs ih =>
    intro b h
    by_cases hx : !pyIsSpace x
    · rw [subWsRuns, if_pos hx] at h
      rcases List.mem_cons.mp h with h | h
      · exact Or.inl (h ▸ List.mem_cons_self x xs)
      · rcases ih h with h | h
        · exact Or.inl (List.mem_cons_of_mem x h)
        · exact Or.inr h
    · rw [subWsRuns, if_neg hx] at h
      by_cases hb : b
      · rw [if_pos hb] at h
        rcases ih h with h | h
        · exact Or.inl (List.mem_cons_of_mem x h)
        · exact Or.inr h
      · rw [if_neg hb] at h
        rcases List.mem_cons.mp h with h | h
        · exact Or.inr h
        · rcases ih h with h | h
          · exact Or.inl (List.mem_cons_of_mem x h)
          · exact Or.inr h

theorem mem_stripEnds {c : Char} {cs : List Char} (h : c ∈ stripEnds cs) : c ∈ cs := by
  unfold stripEnds at h
  rw [List.mem_reverse] at h
  have h1 := (List.dropWhile_sublist (l := (cs.dropWhile pyIsSpace).reverse)
    (p := pyIsSpace)).subset h
  rw [List.mem_reverse] at h1
  exact (List.dropWhile_sublist (l := cs) (p := pyIsSpace)).subset h1

theorem mem_collapse {c : Char} {cs : List Char} (h : c ∈ _collapse_spaces cs) :
    c ∈ cs ∨ c = ' ' :=
  mem_subWsRuns (mem_stripEnds h)

theorem mem_asciiWordsOnly {c : Char} {cs : List Char} (h : c ∈ _ascii_words_only cs) :
    keepLetterSpace c = true := by
  rcases mem_collapse h with h | h
  · exact mem_subNonLetters h
  · subst h; decide

theorem mem_pySplitAux {c : Char} : ∀ {cs cur : List Char} {w : List Char},
    w ∈ pySplitAux cs cur → c ∈ w → c ∈ cs ∨ c ∈ cur := by
  intro cs
  induction cs with
  | nil =>
    intro cur w hw hc
    by_cases hcur : cur.isEmpty
    · rw [pySplitAux, if_pos hcur] at hw; simp at hw
    · rw [pySplitAux, if_neg hcur] at hw
      rcases List.mem_singleton.mp hw with h
      subst h
      exact Or.inr (List.mem_reverse.mp hc)
  | cons x xs ih =>
    intro cur w hw hc
    by_cases hx : pyIsSpace x
    · rw [pySplitAux, if_pos hx] at hw
      by_cases hcur : cur.isEmpty
      · rw [if_pos hcur] at hw
        rcases ih hw hc with h | h
        · exact Or.inl (List.mem_cons_of_mem x h)
        · simp at h
      · rw [if_neg hcur] at hw
        rcases List.mem_cons.mp hw with h | h
        · subst h; exact Or.inr (List.mem_reverse.mp hc)
        · rcases ih h hc with h | h
          · exact Or.inl (List.mem_cons_of_mem x h)
          · simp at h
    · rw [pySplitAux, if_neg hx] at hw
      rcases ih hw hc with h | h
      · exact Or.inl (List.mem_cons_of_mem x h)
      · rcases List.mem_cons.mp h with h | h
        · exact Or.inl (h ▸ List.mem_cons_self x xs)
        · exact Or.inr h

theorem mem_joinSp {c : Char} : ∀ {ws : List (List Char)},
    c ∈ joinSp ws → (∃ w ∈ ws, c ∈ w) ∨ c = ' ' := by
  intro ws
  induction ws with
  | nil => intro h; simp [joinSp] at h
  | cons w ws ih =>
    intro h
    cases ws with
    | nil =>
      exact Or.inl ⟨w, List.mem_singleton.mpr rfl, by simpa [joinSp] using h⟩
    | cons w2 ws2 =>
      have hj : joinSp (w :: w2 :: ws2) = w ++ ' ' :: joinSp (w2 :: ws2) := rfl
      rw [hj] at h
      rcases List.mem_append.mp h with h | h
      · exact Or.inl ⟨w, List.mem_cons_self _ _, h⟩
      · rcases List.mem_cons.mp h with h | h
        · exact Or.inr h
        · rcases ih h with ⟨w3, hw3, hc3⟩ | h
          · exact Or.inl ⟨w3, List.mem_cons_of_mem _ hw3, hc3⟩
          · exact Or.inr h

theorem mem_dropExcluded {c : Char} {cs : List Char}
    (h : c ∈ _drop_excluded_tokens cs) : c ∈ cs ∨ c = ' ' := by
  rcases mem_joinSp h with ⟨w, hw, hc⟩ | h
  · rcases mem_pySplitAux (List.mem_filter.mp hw).1 hc with h | h
    · exact Or.inl h
    · simp at h
  · exact Or.inr h

theorem mem_normTitleL {c : Char} {t : List Char} (h : c ∈ normTitleL t) :
    keepLetterSpace c = true := by
  unfold normTitleL at h
  rcases mem_dropExcluded h with h | h
  · exact mem_asciiWordsOnly h
  · subst h; decide

theorem mem_normCommentL {c : Char} {t : List Char} (h : c ∈ normCommentL t) :
    keepLetterSpace c = true := by
  unfold normCommentL at h
  rcases mem_dropExcluded h with h | h
  · exact mem_asciiWordsOnly h
  · subst h; decide

/- =====================================================================
   app/stream.py: _size_delta
   ===================================================================== -/

/-- The fields of a RecentChanges payload consulted by `_size_delta`:
`length.old` / `length.new` and `revision.old.size` / `revision.new.size`,
each present (as an int) or absent. -/
structure RCChange where
  lengthOld : Option Int
  lengthNew : Option Int
  revOldSize : Option Int
  revNewSize : Option Int

/-- Embeds `stream._size_delta`: absolute byte delta from either schema, else 0. -/
def _size_delta (change : RCChange) : Int :=
  match change.lengthOld, change.lengthNew with
  | some o, some n => |n - o|
  | _, _ =>
    match change.revOldSize, change.revNewSize with
    | some o, some n => |n - o|
    | _, _ => 0

/-- The six forbidden substrings of C9: double brackets, double braces and
URL schemes must not survive normalization. -/
def goodText (s : String) : Prop :=
  ¬ ('[' :: '[' :: []) <:+: s.data ∧
  ¬ (']' :: ']' :: []) <:+: s.data ∧
  ¬ (lbrace :: lbrace :: []) <:+: s.data ∧
  ¬ (rbrace :: rbrace :: []) <:+: s.data ∧
  ¬ "http://".data <:+: s.data ∧
  ¬ "https://".data <:+: s.data

theorem goodText_of_clean {cs : List Char}
    (hall : ∀ c ∈ cs, keepLetterSpace c = true) : goodText (String.mk cs) := by
  refine ⟨?_, ?_, ?_, ?_, ?_, ?_⟩ <;> intro hinf
  · exact absurd (hall '[' (hinf.subset (by decide))) (by decide)
  · exact absurd (hall ']' (hinf.subset (by decide))) (by decide)
  · exact absurd (hall lbrace (hinf.subset (by decide))) (by decide)
  · exact absurd (hall rbrace (hinf.subset (by decide))) (by decide)
  · exact absurd (hall ':' (hinf.subset (by decide))) (by decide)
  · exact absurd (hall ':' (hinf.subset (by decide))) (by decide)

/-- C9: for every raw event, the byte delta computed by `_size_delta` is
nonnegative, and the normalized title and comment contain none of the
substrings `[[`, `]]`, double-open-brace, double-close-brace, `http://`,
`https://`. -/
theorem normalized_event_invariant (change : RCChange) (title comment : String) :
    0 ≤ _size_delta change ∧
    goodText (normalize_title title) ∧ goodText (normalize_comment comment) := by
  refine ⟨?_, ?_, ?_⟩
  · unfold _size_delta
    rcases change.lengthOld with _ | o <;> rcases change.lengthNew with _ | n <;>
      rcases change.revOldSize with _ | o2 <;> rcases change.revNewSize with _ | n2 <;>
      simp [abs_nonneg]
  · exact goodText_of_clean (fun c hc => mem_normTitleL hc)
  · exact goodText_of_clean (fun c hc => mem_normCommentL hc)

/- =====================================================================
   app/config.py: lexicons
   ===================================================================== -/

/-- Embeds `config.STOPWORDS`. -/
def STOPWORDS : List String :=
  ["wikipedia", "wikiproject", "project", "article", "articles",
   "editor", "editors", "edited", "update", "updates", "revised",
   "revision", "page", "pages", "talk", "section", "content",
   "reference", "references", "citation", "citations", "category",
   "categories", "template", "templates"]

/-- Embeds `config.ADMIN_TERMS`. -/
def ADMIN_TERMS : List String :=
  ["talk", "draft", "notification", "redirects", "discussion",
   "rfd", "afd", "template", "category", "wikidata", "citation",
   "references", "log", "banner"]

/- =====================================================================
   app/scoring.py: tokenizer and term maps
   ===================================================================== -/

/-- Python regex word characters `[A-Za-z0-9_]` (ASCII scope). -/
def isWordChar (c : Char) : Bool := c.isAlpha || c.isDigit || c == '_'

/-- Embeds `RE_WORDS3.findall(s)` with `RE_WORDS3 = \b[a-zA-Z]{3,}\b`: maximal ASCII
letter runs of length at least 3 whose neighbours are not word characters.
`prevIsWord` records whether the preceding character was a word character;
the fuel argument (the input length) only serves termination. -/
def words3F : Nat → List Char → Bool → List (List Char)
  | 0, _, _ => []
  | _, [], _ => []
  | fuel + 1, c :: cs2, prevIsWord =>
    if c.isAlpha then
      let run := c :: cs2.takeWhile Char.isAlpha
      let rest := cs2.dropWhile Char.isAlpha
      let okEnd := match rest.head? with
                   | none => true
                   | some n => !isWordChar n
      if !prevIsWord && okEnd && decide (3 ≤ run.length) then
        run :: words3F fuel rest true
      else words3F fuel rest true
    else words3F fuel cs2 (isWordChar c)

def findWords3 (cs : List Char) : List (List Char) := words3F cs.length cs false

/-- Embeds `scoring._tokens`: words of `text.lower()` matched by `RE_WORDS3`, minus
stop and admin vocabulary. -/
def _tokens (text : String) : List String :=
  ((findWords3 (lowerL text.data)).map (fun w => String.mk w)).filter
    (fun w => !(STOPWORDS.contains w) && !(ADMIN_TERMS.contains w))

/-- Embeds `collections.Counter` as an insertion-ordered association list with
unique keys. -/
abbrev CounterL := List (String × Int)

/-- Embeds `counter[w]` (0 when absent). -/
def cget (m : CounterL) (w : String) : Int :=
  match m.find? (fun p => p.1 == w) with
  | some p => p.2
  | none => 0

/-- Embeds `counter[w] += d`: update in place, or append a new key. -/
def cadd (m : CounterL) (w : String) (d : Int) : CounterL :=
  if m.any (fun p => p.1 == w) then
    m.map (fun p => if p.1 == w then (p.1, p.2 + d) else p)
  else m ++ [(w, d)]

/-- Embeds `sum(counter.values())`. -/
def totalVals (m : CounterL) : Int := (m.map (fun p => p.2)).sum

/-- A window entry as consumed by `scoring.term_maps` (fields `title`,
`comment`, `delta` of the dicts yielded by `event_generator`). -/
structure Entry where
  title : String
  comment : String
  delta : Int

/-- Embeds `scoring.term_maps`: build `(term_bytes, term_counts)` across the window. -/
def term_maps (entries : List Entry) : CounterL × CounterL :=
  entries.foldl (fun (tm : CounterL × CounterL) e =>
    let delta := max 0 e.delta
    let txt := strip_admin_markup (e.title ++ " " ++ e.comment)
    let toks := _tokens txt
    toks.foldl (fun tm w => (cadd tm.1 w delta, cadd tm.2 w 1)) tm) ([], [])

/-- Embeds `scoring._unit_scale`: average bytes per token occurrence, floored at 1
(Python `//` is floor division, `Int.fdiv`). -/
def _unit_scale (tb tc : CounterL) : Int :=
  max 1 ((totalVals tb).fdiv (max 1 (totalVals tc)))

/-- Python `int()` applied to a number: truncation toward zero. -/
def pyInt (q : ℚ) : Int := if 0 ≤ q then ⌊q⌋ else ⌈q⌉

/-- Embeds `scoring.score_headline_blend`. -/
def score_headline_blend (headline : String) (tb tc : CounterL) (blend : ℚ) : Int :=
  let b : Int := ((_tokens headline).map (fun w => cget tb w)).sum
  let c : Int := ((_tokens headline).map (fun w => cget tc w)).sum
  pyInt (blend * (b : ℚ) + (1 - blend) * (c : ℚ) * ((_unit_scale tb tc : Int) : ℚ))

/- =====================================================================
   C2: the score formula (spec side) and its comparison with the code
   ===================================================================== -/

/-- Modelled from the spec: `byteOverlap` is the sum of `termBytes` over the
candidate's own tokens. -/
def byteOverlap (tb : CounterL) (cand : String) : Int :=
  ((_tokens cand).map (fun w => cget tb w)).sum

/-- Modelled from the spec: `freqOverlap` is the sum of `termCounts` over the
candidate's own tokens. -/
def freqOverlap (tc : CounterL) (cand : String) : Int :=
  ((_tokens cand).map (fun w => cget tc w)).sum

/-- Modelled from the spec: `unitScale = max(1, totalBytes / totalCount)`
with integer (floor) division and the in-code guard against a zero count. -/
def unitScaleSpec (tb tc : CounterL) : Int :=
  max 1 ((totalVals tb).fdiv (max 1 (totalVals tc)))

/-- Modelled from the claim: the score with round-to-nearest instead of the
code's truncation. -/
def scoreRoundSpec (cand : String) (tb tc : CounterL) (blend : ℚ) : Int :=
  round (blend * (byteOverlap tb cand : ℚ)
       + (1 - blend) * (freqOverlap tc cand : ℚ) * (unitScaleSpec tb tc : ℚ))

/-- A two-entry window: "election" carries 3 bytes, "flood" 0 bytes, so the
blended score of the candidate "election" is 0.8·3 + 0.2·1·1 = 2.6. -/
def windowCex : List Entry := [⟨"election", "", 3⟩, ⟨"flood", "", 0⟩]

/-- C2 counterexample: on `windowCex` with the default blend 0.8, the code's
`score_headline_blend` (Python `int()`, truncation toward zero) yields 2,
while the claimed round-to-nearest formula yields 3. -/
theorem score_round_cex :
    score_headline_blend "election" (term_maps windowCex).1 (term_maps windowCex).2 (4/5) = 2 ∧
    scoreRoundSpec "election" (term_maps windowCex).1 (term_maps windowCex).2 (4/5) = 3 := by
  constructor
  · with_unfolding_all decide
  · with_unfolding_all decide

theorem cadd_vals_nonneg {m : CounterL} {w : String} {d : Int}
    (hm : ∀ p ∈ m, 0 ≤ p.2) (hd : 0 ≤ d) : ∀ p ∈ cadd m w d, 0 ≤ p.2 := by
  intro p hp
  unfold cadd at hp
  by_cases hany : m.any (fun p => p.1 == w)
  · rw [if_pos hany] at hp
    rcases List.mem_map.mp hp with ⟨q, hq, rfl⟩
    by_cases hqw : q.1 == w
    · simp only [hqw, if_true]
      exact add_nonneg (hm q hq) hd
    · simp only [hqw, if_false]
      exact hm q hq
  · rw [if_neg hany] at hp
    rcases List.mem_append.mp hp with h | h
    · exact hm p h
    · rcases List.mem_singleton.mp h with rfl
      exact hd

theorem tokfold_vals_nonneg (delta : Int) (hd : 0 ≤ delta) :
    ∀ (toks : List String) (tm : CounterL × CounterL),
    (∀ p ∈ tm.1, 0 ≤ p.2) → (∀ p ∈ tm.2, 0 ≤ p.2) →
    (∀ p ∈ (toks.foldl (fun tm w => (cadd tm.1 w delta, cadd tm.2 w 1)) tm).1, 0 ≤ p.2) ∧
    (∀ p ∈ (toks.foldl (fun tm w => (cadd tm.1 w delta, cadd tm.2 w 1)) tm).2, 0 ≤ p.2) := by
  intro toks
  induction toks with
  | nil => intro tm h1 h2; exact ⟨h1, h2⟩
  | cons w toks ih =>
    intro tm h1 h2
    exact ih (cadd tm.1 w delta, cadd tm.2 w 1)
      (cadd_vals_nonneg h1 hd) (cadd_vals_nonneg h2 (by norm_num))

theorem term_maps_fold_nonneg :
    ∀ (entries : List Entry) (tm : CounterL × CounterL),
    (∀ p ∈ tm.1, 0 ≤ p.2) → (∀ p ∈ tm.2, 0 ≤ p.2) →
    (∀ p ∈ (entries.foldl (fun (tm : CounterL × CounterL) e =>
      let delta := max 0 e.delta
      let txt := strip_admin_markup (e.title ++ " " ++ e.comment)
      let toks := _tokens txt
      toks.foldl (fun tm w => (cadd tm.1 w delta, cadd tm.2 w 1)) tm) tm).1, 0 ≤ p.2) ∧
    (∀ p ∈ (entries.foldl (fun (tm : CounterL × CounterL) e =>
      let delta := max 0 e.delta
      let txt := strip_admin_markup (e.title ++ " " ++ e.comment)
      let toks := _tokens txt
      toks.foldl (fun tm w => (cadd tm.1 w delta, cadd tm.2 w 1)) tm) tm).2, 0 ≤ p.2) := by
  intro entries
  induction entries with
  | nil => intro tm h1 h2; exact ⟨h1, h2⟩
  | cons e entries ih =>
    intro tm h1 h2
    have hstep := tokfold_vals_nonneg (max 0 e.delta) (le_max_left 0 e.delta)
      (_tokens (strip_admin_markup (e.title ++ " " ++ e.comment))) tm h1 h2
    exact ih _ hstep.1 hstep.2

theorem term_maps_vals_nonneg (entries : List Entry) :
    (∀ p ∈ (term_maps entries).1, 0 ≤ p.2) ∧ (∀ p ∈ (term_maps entries).2, 0 ≤ p.2) :=
  term_maps_fold_nonneg entries ([], []) (by simp) (by simp)

theorem cget_nonneg {m : CounterL} (hm : ∀ p ∈ m, 0 ≤ p.2) (w : String) :
    0 ≤ cget m w := by
  unfold cget
  rcases hf : m.find? (fun p => p.1 == w) with _ | p
  · simp [hf]
  · simp only [hf]
    exact hm p (List.mem_of_find?_eq_some hf)

theorem overlap_nonneg {m : CounterL} (hm : ∀ p ∈ m, 0 ≤ p.2) (cand : String) :
    0 ≤ ((_tokens cand).map (fun w => cget m w)).sum := by
  apply List.sum_nonneg
  intro x hx
  rcases List.mem_map.mp hx with ⟨w, _, rfl⟩
  exact cget_nonneg hm w

/-- C2 (amended): for every window and candidate, and every blend in [0,1],
the code's score equals the blend formula applied with floor/truncation
(Python `int()` on a nonnegative value), not round-to-nearest, with
`unitScale = max(1, totalBytes // max(1, totalCount))`. -/
theorem score_blend_floor (entries : List Entry) (cand : String) (blend : ℚ)
    (h0 : 0 ≤ blend) (h1 : blend ≤ 1) :
    score_headline_blend cand (term_maps entries).1 (term_maps entries).2 blend =
    ⌊blend * (byteOverlap (term_maps entries).1 cand : ℚ)
      + (1 - blend) * (freqOverlap (term_maps entries).2 cand : ℚ)
      * (unitScaleSpec (term_maps entries).1 (term_maps entries).2 : ℚ)⌋ := by
  have hb : (0 : ℚ) ≤ (byteOverlap (term_maps entries).1 cand : ℚ) := by
    exact_mod_cast overlap_nonneg (term_maps_vals_nonneg entries).1 cand
  have hc : (0 : ℚ) ≤ (freqOverlap (term_maps entries).2 cand : ℚ) := by
    exact_mod_cast overlap_nonneg (term_maps_vals_nonneg entries).2 cand
  have hu : (0 : ℚ) ≤ ((unitScaleSpec (term_maps entries).1 (term_maps entries).2 : Int) : ℚ) := by
    have : (1 : Int) ≤ unitScaleSpec (term_maps entries).1 (term_maps entries).2 :=
      le_max_left 1 _
    exact_mod_cast le_trans (by norm_num) this
  have hexpr : (0 : ℚ) ≤ blend * (byteOverlap (term_maps entries).1 cand : ℚ)
      + (1 - blend) * (freqOverlap (term_maps entries).2 cand : ℚ)
      * (unitScaleSpec (term_maps entries).1 (term_maps entries).2 : ℚ) := by
    have h1b : (0 : ℚ) ≤ 1 - blend := by linarith
    have := mul_nonneg h0 hb
    have := mul_nonneg (mul_nonneg h1b hc) hu
    linarith
  show pyInt (blend * (byteOverlap (term_maps entries).1 cand : ℚ)
      + (1 - blend) * (freqOverlap (term_maps entries).2 cand : ℚ)
      * (unitScaleSpec (term_maps entries).1 (term_maps entries).2 : ℚ)) = _
  unfold pyInt
  rw [if_pos hexpr]

/-- C2 witness: the amended formula evaluated on the concrete window. -/
theorem score_blend_floor_witness :
    (0 : ℚ) ≤ 4/5 ∧ (4/5 : ℚ) ≤ 1 ∧
    score_headline_blend "election" (term_maps windowCex).1 (term_maps windowCex).2 (4/5) =
    ⌊(4/5 : ℚ) * (byteOverlap (term_maps windowCex).1 "election" : ℚ)
      + (1 - 4/5) * (freqOverlap (term_maps windowCex).2 "election" : ℚ)
      * (unitScaleSpec (term_maps windowCex).1 (term_maps windowCex).2 : ℚ)⌋ :=
  ⟨by norm_num, by norm_num,
   score_blend_floor windowCex "election" (4/5) (by norm_num) (by norm_num)⟩

/- =====================================================================
   app/cleaning.py: words_for_similarity; app/scoring.py: clustering
   ===================================================================== -/

/-- Embeds `g.split("_", 1)[0]`: the text before the first underscore. -/
def headPart (g : String) : String := String.mk (g.data.takeWhile (fun c => c ≠ '_'))

/-- Embeds `cleaning.words_for_similarity`: lowercase, strip markup, keep words of
length at least 4, take unigrams plus adjacent-pair bigrams, and drop grams
whose head word is stop/admin vocabulary. -/
def words_for_similarity (text : String) : Finset String :=
  let t := stripAdminL (lowerL text.data)
  let words := ((pySplit (subNonLetters t false)).filter
    (fun w => decide (4 ≤ w.length))).map (fun w => String.mk w)
  let grams := words.toFinset ∪ (words.zipWith (fun a b => a ++ "_" ++ b) words.tail).toFinset
  grams.filter (fun g => headPart g ∉ STOPWORDS ∧ headPart g ∉ ADMIN_TERMS)

/-- Embeds `scoring.jaccard_tokens`: Jaccard similarity of unigram+bigram token
sets, with the conventions 1.0 for two empty sets, 0.0 for exactly one. -/
def jaccard_tokens (a b : String) : ℚ :=
  let A := words_for_similarity a
  let B := words_for_similarity b
  if A = ∅ ∧ B = ∅ then 1
  else if A = ∅ ∨ B = ∅ then 0
  else ((A ∩ B).card : ℚ) / ((A ∪ B).card : ℚ)

/-- The mutable dict `{"tok", "sum", "best", "repr", "items"}` built by
`cluster_and_merge` for each cluster. -/
structure Cluster where
  tok : Finset String
  sum : Int
  best : Int
  repr : String
  items : List (String × Int)

/-- The in-loop similarity of `cluster_and_merge`: `inter / (union or 1)`,
where `x or 1` maps a zero union to 1 (so two empty sets score 0.0 here,
unlike `jaccard_tokens`). -/
def simOf (tok : Finset String) (c : Cluster) : ℚ :=
  let inter := (tok ∩ c.tok).card
  let union := (tok ∪ c.tok).card
  (inter : ℚ) / (((if union = 0 then 1 else union) : ℕ) : ℚ)

/-- The `for i, c in enumerate(clusters)` scan for the best similarity:
running `(best_sim, best_idx)` starts at `(0.0, -1)` and is replaced on a
strictly greater similarity. -/
def bestScan (tok : Finset String) : List Cluster → Nat → ℚ × Int → ℚ × Int
  | [], _, acc => acc
  | c :: rest, i, acc =>
    bestScan tok rest (i + 1) (if simOf tok c > acc.1 then (simOf tok c, (i : Int)) else acc)

/-- The merge branch of `cluster_and_merge`: union the token set, add the
score, append the member, and replace best/representative on a strictly
higher score. -/
def mergeInto (c : Cluster) (tok : Finset String) (h : String) (s : Int) : Cluster :=
  { tok := c.tok ∪ tok
    sum := c.sum + s
    best := if s > c.best then s else c.best
    repr := if s > c.best then h else c.repr
    items := c.items ++ [(h, s)] }

/-- In-place update of `clusters[best_idx]`. -/
def updAt (f : Cluster → Cluster) : Nat → List Cluster → List Cluster
  | _, [] => []
  | 0, c :: rest => f c :: rest
  | n + 1, c :: rest => c :: updAt f n rest

/-- One iteration of the `for h, s in scored` loop of `cluster_and_merge`. -/
def clusterStep (simThresh : ℚ) (clusters : List Cluster) (hs : String × Int) : List Cluster :=
  let tok := words_for_similarity hs.1
  let best := bestScan tok clusters 0 (0, -1)
  if best.1 ≥ simThresh ∧ best.2 ≥ 0 then
    updAt (fun c => mergeInto c tok hs.1 hs.2) best.2.toNat clusters
  else
    clusters ++ [{ tok := tok, sum := hs.2, best := hs.2, repr := hs.1, items := [(hs.1, hs.2)] }]

/-- Stable insertion for `merged.sort(key=lambda x: x[1], reverse=True)`:
the incoming element goes before strictly smaller keys and after equal ones
already placed (Python's sort is stable; any stable sort computes the same
list). -/
def insertByScore (x : String × Int × List (String × Int)) :
    List (String × Int × List (String × Int)) →
    List (String × Int × List (String × Int))
  | [] => [x]
  | y :: ys => if y.2.1 ≤ x.2.1 then x :: y :: ys else y :: insertByScore x ys

/-- Python's stable descending sort by total score. -/
def sortByScoreDesc : List (String × Int × List (String × Int)) →
    List (String × Int × List (String × Int))
  | [] => []
  | x :: xs => insertByScore x (sortByScoreDesc xs)

/-- Embeds `scoring.cluster_and_merge`: greedy token-Jaccard clustering, then the
clusters as `(representative, total, members)` triples sorted by total
descending (Python's stable sort with `reverse=True`). -/
def cluster_and_merge (scored : List (String × Int)) (simThresh : ℚ) :
    List (String × Int × List (String × Int)) :=
  let clusters := scored.foldl (clusterStep simThresh) []
  let merged := clusters.map (fun c => (c.repr, c.sum, c.items))
  sortByScoreDesc merged

theorem insertByScore_perm (x : String × Int × List (String × Int)) :
    ∀ l, (insertByScore x l).Perm (x :: l) := by
  intro l
  induction l with
  | nil => exact List.Perm.refl _
  | cons y ys ih =>
    by_cases hc : y.2.1 ≤ x.2.1
    · rw [insertByScore, if_pos hc]
    · rw [insertByScore, if_neg hc]
      exact (List.Perm.cons y ih).trans (List.Perm.swap x y ys)

theorem sortByScoreDesc_perm : ∀ l, (sortByScoreDesc l).Perm l := by
  intro l
  induction l with
  | nil => exact List.Perm.refl _
  | cons x xs ih =>
    exact (insertByScore_perm x (sortByScoreDesc xs)).trans (List.Perm.cons x ih)

theorem insertByScore_pairwise {x : String × Int × List (String × Int)} :
    ∀ {l}, l.Pairwise (fun a b => b.2.1 ≤ a.2.1) →
    (insertByScore x l).Pairwise (fun a b => b.2.1 ≤ a.2.1) := by
  intro l
  induction l with
  | nil => intro _; exact List.pairwise_singleton _ _
  | cons y ys ih =>
    intro hl
    rcases List.pairwise_cons.mp hl with ⟨hy, hys⟩
    by_cases hc : y.2.1 ≤ x.2.1
    · rw [insertByScore, if_pos hc]
      refine List.pairwise_cons.mpr ⟨?_, hl⟩
      intro z hz
      rcases List.mem_cons.mp hz with rfl | hz
      · exact hc
      · exact le_trans (hy z hz) hc
    · rw [insertByScore, if_neg hc]
      refine List.pairwise_cons.mpr ⟨?_, ih hys⟩
      intro z hz
      rcases List.mem_cons.mp ((insertByScore_perm x ys).mem_iff.mp hz) with rfl | hz2
      · exact le_of_not_le hc
      · exact hy z hz2

theorem sortByScoreDesc_pairwise :
    ∀ l, (sortByScoreDesc l).Pairwise
      (fun (a b : String × Int × List (String × Int)) => b.2.1 ≤ a.2.1) := by
  intro l
  induction l with
  | nil => exact List.Pairwise.nil
  | cons x xs ih => exact insertByScore_pairwise ih

/- =====================================================================
   C1 / C10: invariants of cluster_and_merge
   ===================================================================== -/

theorem mem_updAt {f : Cluster → Cluster} :
    ∀ {n : Nat} {l : List Cluster} {c : Cluster},
    c ∈ updAt f n l → c ∈ l ∨ ∃ c2 ∈ l, c = f c2 := by
  intro n
  induction n with
  | zero =>
    intro l c hc
    cases l with
    | nil => simp [updAt] at hc
    | cons x xs =>
      rcases List.mem_cons.mp hc with h | h
      · exact Or.inr ⟨x, List.mem_cons_self _ _, h⟩
      · exact Or.inl (List.mem_cons_of_mem x h)
  | succ n ih =>
    intro l c hc
    cases l with
    | nil => simp [updAt] at hc
    | cons x xs =>
      rcases List.mem_cons.mp hc with h | h
      · exact Or.inl (h ▸ List.mem_cons_self x xs)
      · rcases ih h with h | ⟨c2, hc2, rfl⟩
        · exact Or.inl (List.mem_cons_of_mem x h)
        · exact Or.inr ⟨c2, List.mem_cons_of_mem x hc2, rfl⟩

/-- The per-cluster bookkeeping invariant: the running total is the sum of
the member scores and the member list is non-empty. -/
def clusterInv (clusters : List Cluster) : Prop :=
  ∀ c ∈ clusters, c.sum = (c.items.map Prod.snd).sum ∧ c.items ≠ []

theorem clusterStep_inv {t : ℚ} {clusters : List Cluster} {hs : String × Int}
    (hinv : clusterInv clusters) : clusterInv (clusterStep t clusters hs) := by
  intro c hc
  unfold clusterStep at hc
  by_cases hb : (bestScan (words_for_similarity hs.1) clusters 0 (0, -1)).1 ≥ t ∧
      (bestScan (words_for_similarity hs.1) clusters 0 (0, -1)).2 ≥ 0
  · rw [if_pos hb] at hc
    rcases mem_updAt hc with h | ⟨c2, hc2, rfl⟩
    · exact hinv c h
    · refine ⟨?_, by simp [mergeInto]⟩
      show (mergeInto c2 _ hs.1 hs.2).sum = _
      have h2 := (hinv c2 hc2).1
      simp [mergeInto, h2]
  · rw [if_neg hb] at hc
    rcases List.mem_append.mp hc with h | h
    · exact hinv c h
    · rcases List.mem_singleton.mp h with rfl
      exact ⟨by simp, by simp⟩

theorem foldl_clusterStep_inv (t : ℚ) :
    ∀ (scored : List (String × Int)) (init : List Cluster),
    clusterInv init → clusterInv (scored.foldl (clusterStep t) init) := by
  intro scored
  induction scored with
  | nil => intro init h; exact h
  | cons hs rest ih =>
    intro init h
    exact ih (clusterStep t init hs) (clusterStep_inv h)

/-- C1: for every input list of scored candidates and every threshold, each
cluster returned by `cluster_and_merge` has `totalScore` equal to the sum of
its members' scores, and the returned list is sorted descending by
`totalScore`. -/
theorem cluster_total_and_sorted (scored : List (String × Int)) (simThresh : ℚ) :
    (∀ c ∈ cluster_and_merge scored simThresh, c.2.1 = (c.2.2.map Prod.snd).sum) ∧
    (cluster_and_merge scored simThresh).Pairwise (fun a b => b.2.1 ≤ a.2.1) := by
  constructor
  · intro c hc
    have hperm : (cluster_and_merge scored simThresh).Perm
        ((scored.foldl (clusterStep simThresh) []).map (fun c => (c.repr, c.sum, c.items))) :=
      sortByScoreDesc_perm _
    have hc2 := hperm.mem_iff.mp hc
    rcases List.mem_map.mp hc2 with ⟨cl, hcl, rfl⟩
    exact (foldl_clusterStep_inv simThresh scored [] (by intro c h; simp at h) cl hcl).1
  · exact sortByScoreDesc_pairwise _

/-- C1 witness: a concrete single-candidate run. -/
theorem cluster_total_and_sorted_witness :
    ("", (5 : Int), [("", (5 : Int))]) ∈ cluster_and_merge [("", 5)] (11/20) ∧
    ("", (5 : Int), [("", (5 : Int))]).2.1 =
      (("", (5 : Int), [("", (5 : Int))]).2.2.map Prod.snd).sum :=
  ⟨by with_unfolding_all decide,
   (cluster_total_and_sorted [("", 5)] (11/20)).1 _ (by with_unfolding_all decide)⟩

theorem bestScan_snd (tok : Finset String) :
    ∀ (l : List Cluster) (i : Nat) (acc : ℚ × Int),
    (bestScan tok l i acc).2 = acc.2 ∨
    ∃ m, m < l.length ∧ (bestScan tok l i acc).2 = ((i : Int) + (m : Int)) := by
  intro l
  induction l with
  | nil => intro i acc; exact Or.inl rfl
  | cons c rest ih =>
    intro i acc
    have hunf : bestScan tok (c :: rest) i acc
        = bestScan tok rest (i + 1)
            (if simOf tok c > acc.1 then (simOf tok c, (i : Int)) else acc) := rfl
    rw [hunf]
    by_cases hcmp : simOf tok c > acc.1
    · rw [if_pos hcmp]
      rcases ih (i + 1) (simOf tok c, (i : Int)) with h | ⟨m, hm, h⟩
      · refine Or.inr ⟨0, by simp, ?_⟩
        rw [h]; simp
      · refine Or.inr ⟨m + 1, by simp only [List.length_cons]; omega, ?_⟩
        rw [h]; push_cast; ring
    · rw [if_neg hcmp]
      rcases ih (i + 1) acc with h | ⟨m, hm, h⟩
      · exact Or.inl h
      · refine Or.inr ⟨m + 1, by simp only [List.length_cons]; omega, ?_⟩
        rw [h]; push_cast; ring

theorem updAt_flatten_perm (tok : Finset String) (h : String) (s : Int) :
    ∀ (n : Nat) (l : List Cluster), n < l.length →
    ((updAt (fun c => mergeInto c tok h s) n l).map Cluster.items).flatten.Perm
      ((l.map Cluster.items).flatten ++ [(h, s)]) := by
  intro n
  induction n with
  | zero =>
    intro l hn
    cases l with
    | nil => simp at hn
    | cons c rest =>
      show ((c.items ++ [(h, s)]) :: rest.map Cluster.items).flatten.Perm _
      simp only [List.map_cons, List.flatten_cons, List.append_assoc]
      exact List.Perm.append_left c.items (List.perm_append_comm)
  | succ n ih =>
    intro l hn
    cases l with
    | nil => simp at hn
    | cons c rest =>
      show (c.items :: (updAt _ n rest).map Cluster.items).flatten.Perm _
      simp only [List.map_cons, List.flatten_cons, List.append_assoc]
      exact List.Perm.append_left c.items (ih rest (by simpa using hn))

theorem clusterStep_flatten_perm (t : ℚ) (clusters : List Cluster) (hs : String × Int) :
    ((clusterStep t clusters hs).map Cluster.items).flatten.Perm
      ((clusters.map Cluster.items).flatten ++ [hs]) := by
  unfold clusterStep
  by_cases hb : (bestScan (words_for_similarity hs.1) clusters 0 (0, -1)).1 ≥ t ∧
      (bestScan (words_for_similarity hs.1) clusters 0 (0, -1)).2 ≥ 0
  · rw [if_pos hb]
    rcases bestScan_snd (words_for_similarity hs.1) clusters 0 (0, -1) with h | ⟨m, hm, h⟩
    · rw [h] at hb
      exact absurd hb.2 (by norm_num)
    · rw [h] at hb ⊢
      have htn : (((0 : Nat) : Int) + (m : Int)).toNat = m := by simp
      rw [htn]
      exact updAt_flatten_perm (words_for_similarity hs.1) hs.1 hs.2 m clusters hm
  · rw [if_neg hb]
    simp only [List.map_append, List.flatten_append, List.map_cons, List.map_nil,
      List.flatten_cons, List.flatten_nil]
    simp

theorem foldl_flatten_perm (t : ℚ) :
    ∀ (scored : List (String × Int)) (init : List Cluster),
    ((scored.foldl (clusterStep t) init).map Cluster.items).flatten.Perm
      ((init.map Cluster.items).flatten ++ scored) := by
  intro scored
  induction scored with
  | nil => intro init; simp
  | cons hs rest ih =>
    intro init
    have h1 := ih (clusterStep t init hs)
    have h2 := (clusterStep_flatten_perm t init hs).append_right rest
    have h3 := h1.trans h2
    simpa using h3

theorem sum_map_flatten (ll : List (List (String × Int))) :
    (ll.map (fun l => (l.map Prod.snd).sum)).sum = (ll.flatten.map Prod.snd).sum := by
  induction ll with
  | nil => simp
  | cons l ls ih => simp [ih]

/-- C10: the members of the clusters returned by `cluster_and_merge`
partition the input: their concatenation is a permutation of the input list,
every cluster is non-empty, and the totals sum to the input score sum. -/
theorem cluster_partition (scored : List (String × Int)) (simThresh : ℚ) :
    ((cluster_and_merge scored simThresh).map (fun c => c.2.2)).flatten.Perm scored ∧
    (∀ c ∈ cluster_and_merge scored simThresh, c.2.2 ≠ []) ∧
    ((cluster_and_merge scored simThresh).map (fun c => c.2.1)).sum =
      (scored.map Prod.snd).sum := by
  have hperm : (cluster_and_merge scored simThresh).Perm
      ((scored.foldl (clusterStep simThresh) []).map (fun c => (c.repr, c.sum, c.items))) :=
    sortByScoreDesc_perm _
  have hinv := foldl_clusterStep_inv simThresh scored [] (by intro c h; simp at h)
  have hflat : (((scored.foldl (clusterStep simThresh) []).map
      (fun c => (c.repr, c.sum, c.items))).map (fun c => c.2.2)).flatten.Perm scored := by
    have := foldl_flatten_perm simThresh scored []
    simpa [List.map_map, Function.comp] using this
  refine ⟨?_, ?_, ?_⟩
  · exact ((hperm.map (fun c => c.2.2)).flatten).trans hflat
  · intro c hc
    rcases List.mem_map.mp (hperm.mem_iff.mp hc) with ⟨cl, hcl, rfl⟩
    exact (hinv cl hcl).2
  · have h1 : ((cluster_and_merge scored simThresh).map (fun c => c.2.1)).sum =
        (((scored.foldl (clusterStep simThresh) []).map
          (fun c => (c.repr, c.sum, c.items))).map (fun c => c.2.1)).sum :=
      (hperm.map (fun c => c.2.1)).sum_eq
    rw [h1]
    have h2 : (((scored.foldl (clusterStep simThresh) []).map
        (fun c => (c.repr, c.sum, c.items))).map (fun c => c.2.1)) =
        (scored.foldl (clusterStep simThresh) []).map Cluster.sum := by
      simp [List.map_map, Function.comp]
    rw [h2]
    have h3 : (scored.foldl (clusterStep simThresh) []).map Cluster.sum =
        (scored.foldl (clusterStep simThresh) []).map
          (fun c => (c.items.map Prod.snd).sum) := by
      apply List.map_congr_left
      intro c hc
      exact (hinv c hc).1
    rw [h3]
    have h4 : ((scored.foldl (clusterStep simThresh) []).map
        (fun c => (c.items.map Prod.snd).sum)) =
        (((scored.foldl (clusterStep simThresh) []).map Cluster.items).map
          (fun l => (l.map Prod.snd).sum)) := by
      simp [List.map_map, Function.comp]
    rw [h4, sum_map_flatten]
    have h5 := ((foldl_flatten_perm simThresh scored []).map Prod.snd).sum_eq
    simpa using h5

/-- C10 witness: a concrete single-candidate run has a non-empty cluster. -/
theorem cluster_partition_witness :
    ("", (5 : Int), [("", (5 : Int))]) ∈ cluster_and_merge [("", 5)] (11/20) ∧
    ("", (5 : Int), [("", (5 : Int))]).2.2 ≠ [] :=
  ⟨by with_unfolding_all decide,
   (cluster_partition [("", 5)] (11/20)).2.1 _ (by with_unfolding_all decide)⟩

/- =====================================================================
   C4: duplicate candidates and the best-match scan
   ===================================================================== -/

theorem simOf_nonneg (tok : Finset String) (c : Cluster) : 0 ≤ simOf tok c := by
  unfold simOf
  apply div_nonneg <;> positivity

theorem bestScan_stay (tok : Finset String) :
    ∀ (l : List Cluster) (i : Nat) (b : ℚ) (j : Int),
    (∀ k c, l.get? k = some c → simOf tok c ≤ b) →
    bestScan tok l i (b, j) = (b, j) := by
  intro l
  induction l with
  | nil => intro i b j _; rfl
  | cons c rest ih =>
    intro i b j hall
    have h0 : simOf tok c ≤ b := hall 0 c rfl
    have hunf : bestScan tok (c :: rest) i (b, j)
        = bestScan tok rest (i + 1)
            (if simOf tok c > b then (simOf tok c, (i : Int)) else (b, j)) := rfl
    rw [hunf, if_neg (not_lt.mpr h0)]
    exact ih (i + 1) b j (fun k c2 hk => hall (k + 1) c2 hk)

theorem bestScan_spec (tok : Finset String) :
    ∀ (l : List Cluster) (i : Nat) (b : ℚ) (j : Int), 0 ≤ b →
    (bestScan tok l i (b, j) = (b, j) ∧ ∀ k c, l.get? k = some c → simOf tok c ≤ b) ∨
    (∃ m cm, l.get? m = some cm ∧
      bestScan tok l i (b, j) = (simOf tok cm, (i : Int) + (m : Int)) ∧
      b < simOf tok cm ∧
      (∀ k c, l.get? k = some c → k < m → simOf tok c < simOf tok cm) ∧
      (∀ k c, l.get? k = some c → simOf tok c ≤ simOf tok cm)) := by
  intro l
  induction l with
  | nil =>
    intro i b j _
    left
    exact ⟨rfl, fun k c hk => by simp at hk⟩
  | cons c rest ih =>
    intro i b j hb
    have hunf : bestScan tok (c :: rest) i (b, j)
        = bestScan tok rest (i + 1)
            (if simOf tok c > b then (simOf tok c, (i : Int)) else (b, j)) := rfl
    by_cases hcmp : simOf tok c > b
    · rw [hunf, if_pos hcmp]
      rcases ih (i + 1) (simOf tok c) (i : Int) (le_of_lt (lt_of_le_of_lt hb hcmp)) with
        ⟨heq, hall⟩ | ⟨m, cm, hm, heq, hlt, hearly, halle⟩
      · right
        refine ⟨0, c, rfl, ?_, hcmp, ?_, ?_⟩
        · rw [heq]; simp
        · intro k c2 _ hk0; omega
        · intro k c2 hk
          cases k with
          | zero => injection hk with hk; rw [← hk]
          | succ k => exact hall k c2 hk
      · right
        refine ⟨m + 1, cm, hm, ?_, lt_trans hcmp hlt, ?_, ?_⟩
        · rw [heq]; congr 1; push_cast; ring
        · intro k c2 hk hklt
          cases k with
          | zero => injection hk with hk; rw [← hk]; exact hlt
          | succ k => exact hearly k c2 hk (by omega)
        · intro k c2 hk
          cases k with
          | zero => injection hk with hk; rw [← hk]; exact le_of_lt hlt
          | succ k => exact halle k c2 hk
    · rw [hunf, if_neg hcmp]
      have hcle : simOf tok c ≤ b := not_lt.mp hcmp
      rcases ih (i + 1) b j hb with ⟨heq, hall⟩ | ⟨m, cm, hm, heq, hlt, hearly, halle⟩
      · left
        refine ⟨heq, ?_⟩
        intro k c2 hk
        cases k with
        | zero => injection hk with hk; rw [← hk]; exact hcle
        | succ k => exact hall k c2 hk
      · right
        refine ⟨m + 1, cm, hm, ?_, hlt, ?_, ?_⟩
        · rw [heq]; congr 1; push_cast; ring
        · intro k c2 hk hklt
          cases k with
          | zero => injection hk with hk; rw [← hk]; exact lt_of_le_of_lt hcle hlt
          | succ k => exact hearly k c2 hk (by omega)
        · intro k c2 hk
          cases k with
          | zero => injection hk with hk; rw [← hk]; exact le_trans hcle (le_of_lt hlt)
          | succ k => exact halle k c2 hk

theorem bestScan_forced (tok : Finset String) :
    ∀ (l : List Cluster) (i : Nat) (b : ℚ) (j : Int) (m : Nat) (cm : Cluster) (S : ℚ),
    l.get? m = some cm → simOf tok cm = S →
    (∀ k c, l.get? k = some c → simOf tok c ≤ S) →
    (∀ k c, l.get? k = some c → k < m → simOf tok c < S) →
    b < S → 0 ≤ b →
    bestScan tok l i (b, j) = (S, (i : Int) + (m : Int)) := by
  intro l
  induction l with
  | nil => intro i b j m cm S hm; simp at hm
  | cons c rest ih =>
    intro i b j m cm S hm hS hall hearly hbS hb
    have hunf : bestScan tok (c :: rest) i (b, j)
        = bestScan tok rest (i + 1)
            (if simOf tok c > b then (simOf tok c, (i : Int)) else (b, j)) := rfl
    cases m with
    | zero =>
      have hc : c = cm := by injection hm
      have hsim : simOf tok c = S := by rw [hc, hS]
      have hgt : simOf tok c > b := by rw [hsim]; exact hbS
      rw [hunf, if_pos hgt, hsim]
      rw [bestScan_stay tok rest (i + 1) S (i : Int)
        (fun k c2 hk => hall (k + 1) c2 hk)]
      simp
    | succ m =>
      have hclt : simOf tok c < S := hearly 0 c rfl (Nat.succ_pos m)
      rw [hunf]
      by_cases hcmp : simOf tok c > b
      · rw [if_pos hcmp]
        have hrec := ih (i + 1) (simOf tok c) (i : Int) m cm S hm hS
          (fun k c2 hk => hall (k + 1) c2 hk)
          (fun k c2 hk hkm => hearly (k + 1) c2 hk (by omega))
          hclt (simOf_nonneg tok c)
        rw [hrec]; congr 1; push_cast; ring
      · rw [if_neg hcmp]
        have hrec := ih (i + 1) b j m cm S hm hS
          (fun k c2 hk => hall (k + 1) c2 hk)
          (fun k c2 hk hkm => hearly (k + 1) c2 hk (by omega))
          hbS hb
        rw [hrec]; congr 1; push_cast; ring

theorem bestScan_append (tok : Finset String) :
    ∀ (xs ys : List Cluster) (i : Nat) (acc : ℚ × Int),
    bestScan tok (xs ++ ys) i acc
      = bestScan tok ys (i + xs.length) (bestScan tok xs i acc) := by
  intro xs
  induction xs with
  | nil => intro ys i acc; simp [bestScan]
  | cons c rest ih =>
    intro ys i acc
    have hunf1 : bestScan tok ((c :: rest) ++ ys) i acc
        = bestScan tok (rest ++ ys) (i + 1)
            (if simOf tok c > acc.1 then (simOf tok c, (i : Int)) else acc) := rfl
    have hunf2 : bestScan tok (c :: rest) i acc
        = bestScan tok rest (i + 1)
            (if simOf tok c > acc.1 then (simOf tok c, (i : Int)) else acc) := rfl
    rw [hunf1, hunf2, ih]
    congr 1
    simp [List.length_cons]
    omega

theorem updAt_get? (f : Cluster → Cluster) :
    ∀ (l : List Cluster) (n k : Nat),
    (updAt f n l).get? k = if k = n then (l.get? n).map f else l.get? k := by
  intro l
  induction l with
  | nil =>
    intro n k
    have : updAt f n ([] : List Cluster) = [] := by cases n <;> rfl
    rw [this]
    by_cases hk : k = n
    · simp [hk]
    · simp [hk]
  | cons c rest ih =>
    intro n k
    cases n with
    | zero =>
      cases k with
      | zero => simp [updAt]
      | succ k => simp [updAt]
    | succ n =>
      cases k with
      | zero => simp [updAt]
      | succ k =>
        have h1 : (updAt f (n + 1) (c :: rest)).get? (k + 1)
            = (updAt f n rest).get? k := rfl
        rw [h1, ih n k]
        by_cases hk : k = n
        · simp [hk]
        · have hk2 : k + 1 ≠ n + 1 := by omega
          simp [hk, hk2]

theorem union_card_ne_zero {tok : Finset String} (htok : tok.Nonempty) (B : Finset String) :
    (tok ∪ B).card ≠ 0 := by
  rw [Ne, Finset.card_eq_zero]
  intro hempty
  rcases htok with ⟨x, hx⟩
  have hmem : x ∈ tok ∪ B := Finset.mem_union_left B hx
  rw [hempty] at hmem
  exact absurd hmem (Finset.not_mem_empty x)

theorem simOf_eq_of_nonempty {tok : Finset String} (htok : tok.Nonempty) (c : Cluster) :
    simOf tok c = ((tok ∩ c.tok).card : ℚ) / ((tok ∪ c.tok).card : ℚ) := by
  simp only [simOf]
  rw [if_neg (union_card_ne_zero htok c.tok)]

theorem mergeInto_tok (c : Cluster) (tok : Finset String) (h : String) (s : Int) :
    (mergeInto c tok h s).tok = c.tok ∪ tok := rfl

theorem mergeInto_items (c : Cluster) (tok : Finset String) (h : String) (s : Int) :
    (mergeInto c tok h s).items = c.items ++ [(h, s)] := rfl

theorem simOf_mergeInto {tok : Finset String} (htok : tok.Nonempty)
    (c : Cluster) (h : String) (s : Int) :
    simOf tok c ≤ simOf tok (mergeInto c tok h s) ∧
    0 < simOf tok (mergeInto c tok h s) := by
  have h1 : tok ∩ (c.tok ∪ tok) = tok := Finset.inter_union_self tok c.tok
  have h2 : tok ∪ (c.tok ∪ tok) = tok ∪ c.tok := by
    rw [Finset.union_comm c.tok tok, ← Finset.union_assoc, Finset.union_self]
  have hc : simOf tok (mergeInto c tok h s)
      = (tok.card : ℚ) / ((tok ∪ c.tok).card : ℚ) := by
    rw [simOf_eq_of_nonempty htok, mergeInto_tok, h1, h2]
  have hd : (0 : ℚ) < ((tok ∪ c.tok).card : ℚ) := by
    exact_mod_cast Nat.pos_of_ne_zero (union_card_ne_zero htok c.tok)
  constructor
  · rw [hc, simOf_eq_of_nonempty htok]
    apply (div_le_div_right hd).mpr
    exact_mod_cast Finset.card_le_card (Finset.inter_subset_left)
  · rw [hc]
    apply div_pos _ hd
    exact_mod_cast Finset.card_pos.mpr htok

theorem simOf_self_new {tok : Finset String} (htok : tok.Nonempty) (s b : Int)
    (r : String) (items : List (String × Int)) :
    simOf tok ⟨tok, s, b, r, items⟩ = 1 := by
  rw [simOf_eq_of_nonempty htok]
  show ((tok ∩ tok).card : ℚ) / ((tok ∪ tok).card : ℚ) = 1
  rw [Finset.inter_self, Finset.union_self]
  apply div_self
  exact_mod_cast (Finset.card_pos.mpr htok).ne'

/-- The merge closure used in `clusterStep`. -/
def mergeF (tok : Finset String) (h : String) (s : Int) : Cluster → Cluster :=
  fun c => mergeInto c tok h s

/-- The singleton cluster opened by `clusterStep`. -/
def newCluster (tok : Finset String) (h : String) (s : Int) : Cluster :=
  ⟨tok, s, s, h, [(h, s)]⟩

theorem clusterStep_eq (t : ℚ) (cs : List Cluster) (h : String) (s : Int) :
    clusterStep t cs (h, s) =
      if (bestScan (words_for_similarity h) cs 0 (0, -1)).1 ≥ t ∧
         (bestScan (words_for_similarity h) cs 0 (0, -1)).2 ≥ 0 then
        updAt (mergeF (words_for_similarity h) h s)
          (bestScan (words_for_similarity h) cs 0 (0, -1)).2.toNat cs
      else cs ++ [newCluster (words_for_similarity h) h s] := rfl

set_option maxHeartbeats 2000000 in
/-- Feeding the same candidate twice in a row: the second copy lands in the
same cluster as the first, leaving some cluster whose member list ends with
the two copies. -/
theorem clusterStep_dup (t : ℚ) (clusters : List Cluster) (h : String) (s : Int)
    (htok : (words_for_similarity h).Nonempty) (ht : t ≤ 1) :
    ∃ (m : Nat) (cl : Cluster),
      (clusterStep t (clusterStep t clusters (h, s)) (h, s)).get? m = some cl ∧
      ∃ pre2, cl.items = pre2 ++ [(h, s), (h, s)] := by
  by_cases hb1 : ((bestScan (words_for_similarity h) clusters 0 (0, -1)).1 ≥ t ∧
      (bestScan (words_for_similarity h) clusters 0 (0, -1)).2 ≥ 0)
  · -- first copy merges into some existing cluster m0
    rcases bestScan_spec (words_for_similarity h) clusters 0 0 (-1) le_rfl with
      ⟨heq, _⟩ | ⟨m0, cm, hm0, heq, _, hearly, halle⟩
    · rw [heq] at hb1; exact absurd hb1.2 (by norm_num)
    · have hidx : (bestScan (words_for_similarity h) clusters 0 (0, -1)).2.toNat = m0 := by
        rw [heq]; simp
      have hbest1 : (bestScan (words_for_similarity h) clusters 0 (0, -1)).1
          = simOf (words_for_similarity h) cm := by rw [heq]
      have hc1 : clusterStep t clusters (h, s)
          = updAt (mergeF (words_for_similarity h) h s) m0 clusters := by
        rw [clusterStep_eq, if_pos hb1, hidx]
      have hget1 : (updAt (mergeF (words_for_similarity h) h s) m0 clusters).get? m0
          = some (mergeF (words_for_similarity h) h s cm) := by
        rw [updAt_get?, if_pos rfl, hm0]; rfl
      have hSge := (simOf_mergeInto htok cm h s).1
      have hSpos := (simOf_mergeInto htok cm h s).2
      have hall2 : ∀ k c,
          (updAt (mergeF (words_for_similarity h) h s) m0 clusters).get? k = some c →
          simOf (words_for_similarity h) c
            ≤ simOf (words_for_similarity h) (mergeF (words_for_similarity h) h s cm) := by
        intro k c hk
        rw [updAt_get?] at hk
        by_cases hkm : k = m0
        · rw [if_pos hkm, hm0] at hk
          injection hk with hk
          rw [← hk]
        · rw [if_neg hkm] at hk
          exact le_trans (halle k c hk) hSge
      have hearly2 : ∀ k c,
          (updAt (mergeF (words_for_similarity h) h s) m0 clusters).get? k = some c →
          k < m0 →
          simOf (words_for_similarity h) c
            < simOf (words_for_similarity h) (mergeF (words_for_similarity h) h s cm) := by
        intro k c hk hkm
        rw [updAt_get?, if_neg (Nat.ne_of_lt hkm)] at hk
        exact lt_of_lt_of_le (hearly k c hk hkm) hSge
      have hforced := bestScan_forced (words_for_similarity h)
        (updAt (mergeF (words_for_similarity h) h s) m0 clusters) 0 0 (-1) m0
        (mergeF (words_for_similarity h) h s cm)
        (simOf (words_for_similarity h) (mergeF (words_for_similarity h) h s cm))
        hget1 rfl hall2 hearly2 hSpos le_rfl
      have hb2 : ((bestScan (words_for_similarity h)
          (updAt (mergeF (words_for_similarity h) h s) m0 clusters) 0 (0, -1)).1 ≥ t ∧
          (bestScan (words_for_similarity h)
          (updAt (mergeF (words_for_similarity h) h s) m0 clusters) 0 (0, -1)).2 ≥ 0) := by
        rw [hforced]
        constructor
        · exact le_trans (le_trans hb1.1 (le_of_eq hbest1)) hSge
        · show (0 : Int) ≤ ((0 : ℕ) : Int) + (m0 : Int)
          positivity
      have hidx2 : (bestScan (words_for_similarity h)
          (updAt (mergeF (words_for_similarity h) h s) m0 clusters) 0 (0, -1)).2.toNat
          = m0 := by
        rw [hforced]; simp
      refine ⟨m0,
        mergeF (words_for_similarity h) h s (mergeF (words_for_similarity h) h s cm),
        ?_, cm.items, ?_⟩
      · rw [hc1, clusterStep_eq, if_pos hb2, hidx2, updAt_get?, if_pos rfl, hget1]
        rfl
      · show (mergeInto (mergeInto cm (words_for_similarity h) h s)
          (words_for_similarity h) h s).items = _
        rw [mergeInto_items, mergeInto_items, List.append_assoc]
        rfl
  · -- first copy opens a new cluster at the end; the second joins it
    have hc1 : clusterStep t clusters (h, s)
        = clusters ++ [newCluster (words_for_similarity h) h s] := by
      rw [clusterStep_eq, if_neg hb1]
    have hb0lt : (bestScan (words_for_similarity h) clusters 0 (0, -1)).1 < 1 := by
      rcases bestScan_spec (words_for_similarity h) clusters 0 0 (-1) le_rfl with
        ⟨heq, _⟩ | ⟨m0, cm, hm0, heq, _, _, _⟩
      · rw [heq]; norm_num
      · by_contra hge
        push_neg at hge
        apply hb1
        constructor
        · rw [heq] at hge ⊢
          exact le_trans ht hge
        · rw [heq]
          show (0 : Int) ≤ ((0 : ℕ) : Int) + (m0 : Int)
          positivity
    have hsim_new : simOf (words_for_similarity h)
        (newCluster (words_for_similarity h) h s) = 1 :=
      simOf_self_new htok s s h [(h, s)]
    have hbest2 : bestScan (words_for_similarity h)
        (clusters ++ [newCluster (words_for_similarity h) h s]) 0 (0, -1)
        = (1, (clusters.length : Int)) := by
      rw [bestScan_append]
      have hunf : bestScan (words_for_similarity h)
          [newCluster (words_for_similarity h) h s] (0 + clusters.length)
          (bestScan (words_for_similarity h) clusters 0 (0, -1))
          = bestScan (words_for_similarity h) [] (0 + clusters.length + 1)
              (if simOf (words_for_similarity h) (newCluster (words_for_similarity h) h s)
                  > (bestScan (words_for_similarity h) clusters 0 (0, -1)).1 then
                (simOf (words_for_similarity h) (newCluster (words_for_similarity h) h s),
                  ((0 + clusters.length : ℕ) : Int))
              else bestScan (words_for_similarity h) clusters 0 (0, -1)) := by
        have hacc : bestScan (words_for_similarity h) clusters 0 (0, -1)
            = ((bestScan (words_for_similarity h) clusters 0 (0, -1)).1,
               (bestScan (words_for_similarity h) clusters 0 (0, -1)).2) := rfl
        rfl
      rw [hunf, if_pos (by rw [hsim_new]; exact hb0lt)]
      show (simOf (words_for_similarity h) (newCluster (words_for_similarity h) h s),
        ((0 + clusters.length : ℕ) : Int)) = _
      rw [hsim_new]
      simp
    have hb2 : ((bestScan (words_for_similarity h)
        (clusters ++ [newCluster (words_for_similarity h) h s]) 0 (0, -1)).1 ≥ t ∧
        (bestScan (words_for_similarity h)
        (clusters ++ [newCluster (words_for_similarity h) h s]) 0 (0, -1)).2 ≥ 0) := by
      rw [hbest2]
      exact ⟨ht, Int.natCast_nonneg clusters.length⟩
    have hidx2 : (bestScan (words_for_similarity h)
        (clusters ++ [newCluster (words_for_similarity h) h s]) 0 (0, -1)).2.toNat
        = clusters.length := by
      rw [hbest2]; simp
    refine ⟨clusters.length,
      mergeF (words_for_similarity h) h s (newCluster (words_for_similarity h) h s),
      ?_, [], ?_⟩
    · rw [hc1, clusterStep_eq, if_pos hb2, hidx2, updAt_get?, if_pos rfl,
        List.get?_concat_length]
      rfl
    · show (mergeInto (newCluster (words_for_similarity h) h s)
        (words_for_similarity h) h s).items = _
      rw [mergeInto_items]
      rfl

theorem clusterStep_items_mono (t : ℚ) (h : String) (s2 : Int) (clusters : List Cluster)
    (m : Nat) (cl : Cluster) (hget : clusters.get? m = some cl) :
    ∃ cl2, (clusterStep t clusters (h, s2)).get? m = some cl2 ∧
      ∃ suf, cl2.items = cl.items ++ suf := by
  rw [clusterStep_eq]
  by_cases hb : ((bestScan (words_for_similarity h) clusters 0 (0, -1)).1 ≥ t ∧
      (bestScan (words_for_similarity h) clusters 0 (0, -1)).2 ≥ 0)
  · rw [if_pos hb, updAt_get?]
    by_cases hm : m = (bestScan (words_for_similarity h) clusters 0 (0, -1)).2.toNat
    · rw [if_pos hm, ← hm, hget]
      exact ⟨mergeF (words_for_similarity h) h s2 cl, rfl, [(h, s2)],
        mergeInto_items cl (words_for_similarity h) h s2⟩
    · rw [if_neg hm, hget]
      exact ⟨cl, rfl, [], by simp⟩
  · rw [if_neg hb]
    have hmlen : m < clusters.length := by
      by_contra hlen
      push_neg at hlen
      rw [List.get?_eq_none.mpr hlen] at hget
      exact Option.noConfusion hget
    refine ⟨cl, ?_, [], by simp⟩
    rw [List.get?_append hmlen]
    exact hget

theorem foldl_items_mono (t : ℚ) :
    ∀ (post : List (String × Int)) (clusters : List Cluster) (m : Nat) (cl : Cluster),
    clusters.get? m = some cl →
    ∃ cl2, (post.foldl (clusterStep t) clusters).get? m = some cl2 ∧
      ∃ suf, cl2.items = cl.items ++ suf := by
  intro post
  induction post with
  | nil => intro clusters m cl hget; exact ⟨cl, hget, [], by simp⟩
  | cons hs rest ih =>
    intro clusters m cl hget
    rcases clusterStep_items_mono t hs.1 hs.2 clusters m cl hget with ⟨cl1, h1, suf1, hs1⟩
    rcases ih (clusterStep t clusters hs) m cl1 h1 with ⟨cl2, h2, suf2, hs2⟩
    exact ⟨cl2, h2, suf1 ++ suf2, by rw [hs2, hs1, List.append_assoc]⟩

/-- C4 counterexample: the claim fails as stated.  Feeding a candidate with
an empty similarity token set (the empty string) twice, with threshold 0.55
(at most 1.0), produces two distinct singleton clusters each holding one
copy: inside `cluster_and_merge` the similarity of two empty token sets is
`0 / 1 = 0.0` (the `or 1` union guard), not the 1.0 of `jaccard_tokens`. -/
theorem cluster_dup_cex :
    cluster_and_merge [("", 1), ("", 1)] (11/20) =
      [("", 1, [("", 1)]), ("", 1, [("", 1)])] := by
  with_unfolding_all decide

/-- C4 (amended): when the duplicated candidate's similarity token set is
non-empty and the two copies are fed consecutively, they end in the same
cluster: for every prefix, suffix and threshold at most 1.0, some returned
cluster contains the duplicated pair at least twice. -/
theorem cluster_dup_same (pre post : List (String × Int)) (h : String) (s : Int)
    (simThresh : ℚ) (htok : (words_for_similarity h).Nonempty) (ht : simThresh ≤ 1) :
    ∃ c ∈ cluster_and_merge (pre ++ [(h, s), (h, s)] ++ post) simThresh,
      2 ≤ c.2.2.count (h, s) := by
  have hfold : (pre ++ [(h, s), (h, s)] ++ post).foldl (clusterStep simThresh)
        ([] : List Cluster) =
      post.foldl (clusterStep simThresh)
        (clusterStep simThresh
          (clusterStep simThresh (pre.foldl (clusterStep simThresh) []) (h, s)) (h, s)) := by
    rw [List.foldl_append, List.foldl_append]
    rfl
  rcases clusterStep_dup simThresh (pre.foldl (clusterStep simThresh) []) h s htok ht with
    ⟨m, cl, hget, pre2, hitems⟩
  rcases foldl_items_mono simThresh post _ m cl hget with ⟨cl2, hget2, suf, hitems2⟩
  have hmem : cl2 ∈ (pre ++ [(h, s), (h, s)] ++ post).foldl (clusterStep simThresh) [] := by
    rw [hfold]
    exact List.get?_mem hget2
  have hperm : (cluster_and_merge (pre ++ [(h, s), (h, s)] ++ post) simThresh).Perm
      (((pre ++ [(h, s), (h, s)] ++ post).foldl (clusterStep simThresh) []).map
        (fun c => (c.repr, c.sum, c.items))) := sortByScoreDesc_perm _
  refine ⟨(cl2.repr, cl2.sum, cl2.items), ?_, ?_⟩
  · exact hperm.mem_iff.mpr (List.mem_map_of_mem _ hmem)
  · show 2 ≤ cl2.items.count (h, s)
    rw [hitems2, hitems, List.count_append, List.count_append]
    have hmid : List.count (h, s) [(h, s), (h, s)] = 2 := by simp
    rw [hmid]
    omega

/-- C4 witness: the amended statement on a concrete candidate with a
non-empty token set. -/
theorem cluster_dup_same_witness :
    (words_for_similarity "storm").Nonempty ∧ (11/20 : ℚ) ≤ 1 ∧
    ∃ c ∈ cluster_and_merge ([] ++ [("storm", (1 : Int)), ("storm", 1)] ++ []) (11/20),
      2 ≤ c.2.2.count ("storm", 1) :=
  ⟨by with_unfolding_all decide, by norm_num,
   cluster_dup_same [] [] "storm" 1 (11/20) (by with_unfolding_all decide) (by norm_num)⟩

/- =====================================================================
   C3: the reconnect backoff of stream.event_generator
   ===================================================================== -/

/-- Embeds `backoff = 2  # seconds (will be jittered and capped at 30)`. -/
def backoffInitial : Nat := 2

/-- The deterministic part of `wait = min(backoff, 30) + random.uniform(0.25, 0.75)`:
the jitter is passed in as a parameter in [1/4, 3/4]. -/
def backoffWait (backoff : Nat) (jitter : ℚ) : ℚ := (min backoff 30 : Nat) + jitter

/-- The update after one loop iteration: on error
`backoff = min(backoff * 2, 30)`; after a clean session `backoff = 2`. -/
def backoffNext (backoff : Nat) (errored : Bool) : Nat :=
  if errored then min (backoff * 2) 30 else 2

/-- The backoff value in effect at the k-th consecutive failure since the
last reset. -/
def backoffAfter : Nat → Nat
  | 0 => backoffInitial
  | k + 1 => backoffNext (backoffAfter k) true

/-- Modelled from the claim: `min(base * 2^failures, cap)` with the
configured `sse_retry_base_s = 3` and `sse_retry_max_s = 20`. -/
def claimedWait (k : Nat) : Nat := min (3 * 2 ^ k) 20

/-- C3 counterexample: at the first failure the code waits `2 + jitter`
seconds (jitter at most 3/4) while the claim demands `3 + jitter` (jitter at
least 1/4): the two intervals are disjoint, so no jitter realization makes
the claim true.  `event_generator` hardcodes base 2 and cap 30 and never
reads `sse_retry_base_s`/`sse_retry_max_s`. -/
theorem backoff_first_wait_cex :
    backoffWait (backoffAfter 0) (1/2) = 2 + 1/2 ∧
    (claimedWait 0 : ℚ) = 3 ∧
    backoffWait (backoffAfter 0) (3/4) < (claimedWait 0 : ℚ) + 1/4 := by
  refine ⟨?_, ?_, ?_⟩
  · norm_num [backoffWait, backoffAfter, backoffInitial]
  · norm_num [claimedWait]
  · norm_num [backoffWait, backoffAfter, backoffInitial, claimedWait]

/-- C3 (amended): the wait before the k-th reconnect after consecutive
failures is `min(2 * 2^k, 30)` seconds plus the jitter — exponential with
hardcoded base 2 and cap 30 (not the configured 3 and 20) — and a clean
session resets the backoff to 2 so the next wait is again about 2 seconds. -/
theorem backoff_schedule :
    (∀ k, backoffAfter k = min (2 * 2 ^ k) 30) ∧
    (∀ b, backoffNext b false = backoffInitial) ∧
    (∀ k j, backoffWait (backoffAfter k) j = ((min (2 * 2 ^ k) 30 : Nat) : ℚ) + j) := by
  have hmain : ∀ k, backoffAfter k = min (2 * 2 ^ k) 30 := by
    intro k
    induction k with
    | zero => decide
    | succ k ih =>
      show backoffNext (backoffAfter k) true = _
      rw [backoffNext, if_pos rfl, ih]
      have h2 : 2 * 2 ^ (k + 1) = 2 * 2 ^ k * 2 := by ring
      rw [h2]
      generalize 2 * 2 ^ k = x
      omega
  refine ⟨hmain, fun b => rfl, ?_⟩
  intro k j
  rw [backoffWait, hmain k]
  congr 2
  generalize 2 * 2 ^ k = x
  omega

/- =====================================================================
   C8: stream.collect_window
   ===================================================================== -/

/-- One `next(gen)` outcome: a produced item, the StopIteration that ends a
generator, or any other exception. -/
inductive Pull (α ε : Type) where
  | item : α → Pull α ε
  | stopIter : Pull α ε
  | err : ε → Pull α ε

/-- The `while time.time() - start < seconds` loop of `collect_window`:
`fuel` counts the loop iterations the clock still permits, the pull list is
the generator (an exhausted list raises StopIteration).  `try ... except
StopIteration: break` catches only StopIteration; any other exception
escapes as `Except.error`. -/
def collectAux {α ε : Type} : Nat → List (Pull α ε) → List α → Except ε (List α)
  | 0, _, acc => .ok acc
  | _ + 1, [], acc => .ok acc
  | fuel + 1, p :: rest, acc =>
    match p with
    | .item a => collectAux fuel rest (acc ++ [a])
    | .stopIter => .ok acc
    | .err e => .error e

def collect_window {α ε : Type} (fuel : Nat) (gen : List (Pull α ε)) : Except ε (List α) :=
  collectAux fuel gen []

/-- C8 counterexample: when producing the second item raises a
non-StopIteration error, `collect_window` propagates the error instead of
returning the one event gathered so far. -/
theorem collect_window_error_cex :
    collect_window 5 [Pull.item (1 : Nat), Pull.err (0 : Nat)] = Except.error 0 ∧
    Except.error (0 : Nat) ≠ Except.ok [(1 : Nat)] := by
  exact ⟨rfl, by simp⟩

theorem collectAux_stop {α ε : Type} :
    ∀ (vs : List α) (fuel : Nat) (acc : List α) (rest : List (Pull α ε)),
    collectAux fuel (vs.map Pull.item ++ Pull.stopIter :: rest) acc
      = Except.ok (acc ++ vs.take fuel) := by
  intro vs
  induction vs with
  | nil =>
    intro fuel acc rest
    cases fuel with
    | zero => simp [collectAux]
    | succ fuel => simp [collectAux]
  | cons v vs ih =>
    intro fuel acc rest
    cases fuel with
    | zero => simp [collectAux]
    | succ fuel =>
      show collectAux fuel (vs.map Pull.item ++ Pull.stopIter :: rest) (acc ++ [v]) = _
      rw [ih fuel (acc ++ [v]) rest]
      simp

theorem collectAux_err {α ε : Type} (e : ε) :
    ∀ (vs : List α) (fuel : Nat) (acc : List α) (rest : List (Pull α ε)),
    collectAux fuel (vs.map Pull.item ++ Pull.err e :: rest) acc
      = if fuel ≤ vs.length then Except.ok (acc ++ vs.take fuel) else Except.error e := by
  intro vs
  induction vs with
  | nil =>
    intro fuel acc rest
    cases fuel with
    | zero => simp [collectAux]
    | succ fuel => simp [collectAux]
  | cons v vs ih =>
    intro fuel acc rest
    cases fuel with
    | zero => simp [collectAux]
    | succ fuel =>
      show collectAux fuel (vs.map Pull.item ++ Pull.err e :: rest) (acc ++ [v])
        = if fuel + 1 ≤ vs.length + 1 then _ else _
      rw [ih fuel (acc ++ [v]) rest]
      by_cases hf : fuel ≤ vs.length
      · rw [if_pos hf, if_pos (by omega)]
        simp
      · rw [if_neg hf, if_neg (by omega)]

/-- C8 (amended): the end of the sequence (StopIteration) ends the window
early and returns the events gathered so far without propagating; any other
per-item error propagates to the caller.  `vs.take fuel` are the items the
clock permitted. -/
theorem collect_window_behavior {α ε : Type} (vs : List α) (rest : List (Pull α ε))
    (fuel : Nat) (e : ε) :
    collect_window fuel (vs.map Pull.item ++ Pull.stopIter :: rest)
      = Except.ok (vs.take fuel) ∧
    collect_window fuel (vs.map Pull.item ++ Pull.err e :: rest)
      = (if fuel ≤ vs.length then Except.ok (vs.take fuel) else Except.error e) := by
  constructor
  · rw [collect_window, collectAux_stop vs fuel [] rest]
    simp
  · rw [collect_window, collectAux_err e vs fuel [] rest]
    simp

/- =====================================================================
   C6: the recent ring buffer of app/api.py
   ===================================================================== -/

/-- Embeds `RECENT_MAX = 1000`. -/
def RECENT_MAX : Nat := 1000

/-- Embeds `deque(maxlen=RECENT_MAX).append`: append, evicting from the left past
capacity. -/
def recentAppend {α : Type} (buf : List α) (r : α) : List α :=
  let b := buf ++ [r]
  if RECENT_MAX < b.length then b.drop (b.length - RECENT_MAX) else b

/-- The buffer after publishing the records in order into an empty deque. -/
def publishAll {α : Type} (records : List α) : List α :=
  records.foldl recentAppend []

/-- Embeds `GET /recent`: `n = max(1, min(n, RECENT_MAX)); items = list(_recent)[-n:]`
(the last `n` elements, oldest first, newest last). -/
def recentQuery {α : Type} (buf : List α) (n : Int) : List α :=
  buf.drop (buf.length - (max 1 (min n (RECENT_MAX : Int))).toNat)

theorem recentAppend_eq {α : Type} (buf : List α) (r : α) :
    recentAppend buf r = (buf ++ [r]).drop ((buf ++ [r]).length - RECENT_MAX) := by
  unfold recentAppend
  by_cases hlen : RECENT_MAX < (buf ++ [r]).length
  · rw [if_pos hlen]
  · rw [if_neg hlen]
    push_neg at hlen
    have h0 : (buf ++ [r]).length - RECENT_MAX = 0 := by omega
    rw [h0, List.drop_zero]

theorem publish_fold {α : Type} :
    ∀ (l buf : List α), buf.length ≤ RECENT_MAX →
    l.foldl recentAppend buf = (buf ++ l).drop ((buf ++ l).length - RECENT_MAX) := by
  intro l
  induction l with
  | nil =>
    intro buf hbuf
    simp only [List.foldl_nil, List.append_nil]
    have h0 : buf.length - RECENT_MAX = 0 := by omega
    rw [h0, List.drop_zero]
  | cons r l ih =>
    intro buf hbuf
    have hlen2 : (recentAppend buf r).length ≤ RECENT_MAX := by
      rw [recentAppend_eq, List.length_drop]
      omega
    rw [List.foldl_cons, ih (recentAppend buf r) hlen2, recentAppend_eq]
    have ha : (buf ++ [r]).length - RECENT_MAX ≤ (buf ++ [r]).length := Nat.sub_le _ _
    rw [← List.drop_append_of_le_length ha, List.drop_drop]
    rw [List.append_assoc, List.singleton_append]
    refine congrFun (congrArg List.drop ?_) _
    simp only [List.length_append, List.length_drop, List.length_cons,
      List.length_singleton, List.length_nil]
    omega

/-- C6: after N publishes the buffer holds exactly the most recent
`min(N, 1000)` records in publish order (all of them when N ≤ 1000), and
`recent(n)` returns the `min(max(n,1),1000)`-record suffix — the most recent
records, newest last. -/
theorem recent_buffer_roundtrip {α : Type} (records : List α) (n : Int) :
    publishAll records = records.drop (records.length - RECENT_MAX) ∧
    (records.length ≤ RECENT_MAX → publishAll records = records) ∧
    recentQuery (publishAll records) n =
      (publishAll records).drop
        ((publishAll records).length - (min (max n 1) (RECENT_MAX : Int)).toNat) ∧
    (recentQuery (publishAll records) n).length =
      min (min (max n 1) (RECENT_MAX : Int)).toNat (publishAll records).length := by
  have hclamp : max 1 (min n (RECENT_MAX : Int)) = min (max n 1) (RECENT_MAX : Int) := by
    simp only [RECENT_MAX]
    omega
  have h1 : publishAll records = records.drop (records.length - RECENT_MAX) := by
    have h := publish_fold records ([] : List α) (by simp [RECENT_MAX])
    simpa [publishAll] using h
  refine ⟨h1, ?_, ?_, ?_⟩
  · intro hlen
    rw [h1]
    have h0 : records.length - RECENT_MAX = 0 := by omega
    rw [h0, List.drop_zero]
  · rw [recentQuery, hclamp]
  · rw [recentQuery, hclamp, List.length_drop]
    omega

/-- C6 witness: three publishes fit the buffer and are returned verbatim. -/
theorem recent_buffer_roundtrip_witness :
    ([0, 1, 2] : List Nat).length ≤ RECENT_MAX ∧ publishAll [0, 1, 2] = [0, 1, 2] :=
  ⟨by decide, (recent_buffer_roundtrip [0, 1, 2] 2).2.1 (by decide)⟩

/- =====================================================================
   C7: the broadcast hub of app/api.py
   ===================================================================== -/

/-- Embeds `asyncio.Queue(maxsize=256)`. -/
def QUEUE_MAX : Nat := 256

/-- Embeds `q.put_nowait(obj)` under `except asyncio.QueueFull: pass`: enqueue when
below capacity, silently drop otherwise. -/
def tryPut {α : Type} (q : List α) (x : α) : List α :=
  if q.length < QUEUE_MAX then q ++ [x] else q

/-- Embeds `api._broadcast`: one non-blocking `tryPut` per subscriber queue; a total
function, so the publisher always completes. -/
def _broadcast {α : Type} (clients : List (List α)) (x : α) : List (List α) :=
  clients.map (fun q => tryPut q x)

theorem tryPut_fold_length {α : Type} :
    ∀ (l : List α) (q : List α), q.length ≤ QUEUE_MAX →
    (l.foldl tryPut q).length = min (q.length + l.length) QUEUE_MAX := by
  intro l
  induction l with
  | nil =>
    intro q hq
    simp
    omega
  | cons x l ih =>
    intro q hq
    have hstep : (tryPut q x).length = if q.length < QUEUE_MAX then q.length + 1 else q.length := by
      unfold tryPut
      by_cases hlt : q.length < QUEUE_MAX
      · rw [if_pos hlt, if_pos hlt, List.length_append]
        rfl
      · rw [if_neg hlt, if_neg hlt]
    have hle : (tryPut q x).length ≤ QUEUE_MAX := by
      rw [hstep]
      by_cases hlt : q.length < QUEUE_MAX
      · rw [if_pos hlt]; omega
      · rw [if_neg hlt]; omega
    rw [List.foldl_cons, ih (tryPut q x) hle, hstep]
    by_cases hlt : q.length < QUEUE_MAX
    · rw [if_pos hlt]
      simp [List.length_cons]
      omega
    · rw [if_neg hlt]
      simp [List.length_cons]
      omega

/-- C7: publishing is per-subscriber and non-blocking: each subscriber's
queue receives the message exactly when it has space, a full queue drops the
message for that subscriber only (every other queue is handled from its own
state alone), and 300 publishes into a never-read queue leave exactly 256
items. -/
theorem broadcast_drop_policy {α : Type} (clients : List (List α)) (x : α)
    (i : Nat) (q : List α) (hq : clients.get? i = some q) :
    (_broadcast clients x).get? i = some (tryPut q x) ∧
    (QUEUE_MAX ≤ q.length → tryPut q x = q) ∧
    (q.length < QUEUE_MAX → tryPut q x = q ++ [x]) ∧
    ((List.range 300).foldl tryPut ([] : List Nat)).length = QUEUE_MAX := by
  refine ⟨?_, ?_, ?_, ?_⟩
  · rw [_broadcast, List.get?_map, hq]
    rfl
  · intro hfull
    unfold tryPut
    rw [if_neg (not_lt.mpr hfull)]
  · intro hspace
    unfold tryPut
    rw [if_pos hspace]
  · rw [tryPut_fold_length (List.range 300) [] (by simp [QUEUE_MAX])]
    simp [QUEUE_MAX]

/-- C7 witness: a one-subscriber hub with space receives the message, and
the 300-publish burst saturates at 256. -/
theorem broadcast_drop_policy_witness :
    ([[5]] : List (List Nat)).get? 0 = some [5] ∧
    ((_broadcast [[5]] 7).get? 0 = some (tryPut [5] 7) ∧
     (QUEUE_MAX ≤ ([5] : List Nat).length → tryPut [5] 7 = [5]) ∧
     (([5] : List Nat).length < QUEUE_MAX → tryPut [5] 7 = [5] ++ [7]) ∧
     ((List.range 300).foldl tryPut ([] : List Nat)).length = QUEUE_MAX) :=
  ⟨rfl, broadcast_drop_policy [[5]] 7 0 [5] rfl⟩

/- =====================================================================
   C5: scoring.simple_fallback_headlines
   ===================================================================== -/

/-- Python `str.title()` (ASCII scope): uppercase a letter that starts a
word, lowercase the following letters. -/
def pyTitleAux : List Char → Bool → List Char
  | [], _ => []
  | c :: cs, prevAlpha =>
    if c.isAlpha then
      (if prevAlpha then c.toLower else c.toUpper) :: pyTitleAux cs true
    else c :: pyTitleAux cs false

def pyTitle (s : String) : String := String.mk (pyTitleAux s.data false)

/-- Stable insertion for `Counter.most_common`: CPython sorts the items by
count descending, stable on ties. -/
def insertByCount (x : String × Int) : CounterL → CounterL
  | [] => [x]
  | y :: ys => if y.2 ≤ x.2 then x :: y :: ys else y :: insertByCount x ys

def sortByCountDesc : CounterL → CounterL
  | [] => []
  | x :: xs => insertByCount x (sortByCountDesc xs)

/-- Embeds `bag.most_common(n)`. -/
def most_common (bag : CounterL) (n : Nat) : CounterL := (sortByCountDesc bag).take n

/-- The `while len(out) < n and i < len(tops)` chunking loop:
`chunk = " ".join(tops[i:i+max_words]).strip()` is appended when non-empty
and `i` advances by `max_words`.  The fuel only serves termination (with
`max_words = 0` the Python loop would never terminate). -/
def chunksAux (tops : List String) (n mw : Nat) : Nat → Nat → List String → List String
  | 0, _, out => out
  | fuel + 1, i, out =>
    if out.length < n ∧ i < tops.length then
      let chunk := String.mk (stripEnds (joinSp (((tops.drop i).take mw).map String.data)))
      chunksAux tops n mw fuel (i + mw)
        (if chunk ≠ "" then out ++ [chunk] else out)
    else out

/-- Embeds `scoring.simple_fallback_headlines`: frequency-ranked content words of
the first 12 entries, title-cased and chunked; on an empty chunk list, the
truncated non-empty samples. -/
def simple_fallback_headlines (entries : List Entry) (n : Nat := 10)
    (max_words : Nat := 8) : List String :=
  let ent := entries.take 12
  let samples := ent.map (fun e => strip_admin_markup (e.title ++ " " ++ e.comment))
  let bag := ent.foldl (fun bag e =>
    let txt := strip_admin_markup (e.title ++ " " ++ e.comment)
    (findWords3 (lowerL txt.data)).foldl (fun bag w =>
      let ws := String.mk w
      if 4 ≤ w.length ∧ ws ∉ STOPWORDS ∧ ws ∉ ADMIN_TERMS then cadd bag ws 1
      else bag) bag) []
  let tops := (most_common bag 60).map (fun p => pyTitle p.1)
  let out := chunksAux tops n max_words (tops.length + 1) 0 []
  if out.isEmpty then
    ((samples.filter (fun s => s ≠ "")).map (fun s => String.mk (s.data.take 60))).take n
  else out

/-- C5: the fallback generator is not never-empty.  On the non-empty window
consisting of one entry whose title and comment are both empty, the cleaned
sample text is the empty string, so the word bag, the chunk list, and the
last-resort list (`[s[:60] for s in samples if s]` filters out the empty
sample) are all empty, and the function returns the empty list — against
the spec and the code's own "never empty" comments. -/
theorem fallback_empty_on_blank_window :
    simple_fallback_headlines [⟨"", "", 0⟩] 10 8 = [] ∧
    ([(⟨"", "", 0⟩ : Entry)] : List Entry) ≠ [] := by
  exact ⟨by with_unfolding_all decide, by simp⟩
